import Mathlib

/-!
Verification of the VoteKit ballot-generation and election-state components.

The data model and the operations below are shallow embeddings of the
repository's Python code.  `ElectionState` and its methods come from
`src/votekit/election_state.py`.  The `Ballot`/profile aggregation, the
ballot generators and the CSV loader are present in the repository only
through their test suites, so those operations are modelled from the
specification, as marked in their doc comments.
-/

namespace VoteKit

/-- A candidate identifier; `none` at a ranking position is the undervote
sentinel. -/
abbrev Cand := Option String

/-- A ranking: ordered positions, each a set of candidates (ties), where the
set `{none}` marks an undervote position. -/
abbrev Ranking := List (Finset Cand)

/-- One ranked vote record: `ranking`, exact rational `weight`, and the set of
contributing `voters`. -/
structure Ballot where
  ranking : Ranking
  weight : ℚ
  voters : Finset String
deriving DecidableEq

/-- Modelled from the spec: profile aggregation merges a new ballot into an
accumulator, summing weights and unioning voter sets when an accumulated
ballot has the identical ranking, otherwise appending (`pref_profile.py` is
absent from the sources; behaviour fixed by §4.1 and `test_loaders.py`). -/
def mergeInto : List Ballot → Ballot → List Ballot
  | [], b => [b]
  | a :: rest, b =>
    if a.ranking = b.ranking then
      { ranking := b.ranking, weight := a.weight + b.weight,
        voters := a.voters ∪ b.voters } :: rest
    else
      a :: mergeInto rest b

/-- Modelled from the spec: fold an ordered sequence of raw ballots into a
deduplicated weighted profile (the ballot list of a `PreferenceProfile`). -/
def aggregate (bs : List Ballot) : List Ballot :=
  bs.foldl mergeInto []

/-- Total weight of the ballots in a profile (`num_ballots`). -/
def num_ballots (bs : List Ballot) : ℚ :=
  (bs.map Ballot.weight).sum

/-- Combined weight, over a ballot list, of the ballots carrying exactly the
ranking `r`. -/
def weightOf (r : Ranking) (bs : List Ballot) : ℚ :=
  ((bs.filter fun b => decide (b.ranking = r)).map Ballot.weight).sum

/-- Union of the voter sets, over a ballot list, of the ballots carrying
exactly the ranking `r`. -/
def votersOf (r : Ranking) (bs : List Ballot) : Finset String :=
  (bs.filter fun b => decide (b.ranking = r)).foldr (fun b acc => b.voters ∪ acc) ∅

@[simp]
theorem weightOf_nil (r : Ranking) : weightOf r [] = 0 := rfl

@[simp]
theorem votersOf_nil (r : Ranking) : votersOf r [] = ∅ := rfl

theorem weightOf_cons (r : Ranking) (a : Ballot) (l : List Ballot) :
    weightOf r (a :: l) = (if a.ranking = r then a.weight else 0) + weightOf r l := by
  by_cases h : a.ranking = r <;> simp [weightOf, h]

theorem votersOf_cons (r : Ranking) (a : Ballot) (l : List Ballot) :
    votersOf r (a :: l) = (if a.ranking = r then a.voters else ∅) ∪ votersOf r l := by
  by_cases h : a.ranking = r <;> simp [votersOf, h]

theorem weightOf_mergeInto (r : Ranking) (acc : List Ballot) (b : Ballot) :
    weightOf r (mergeInto acc b)
      = weightOf r acc + (if b.ranking = r then b.weight else 0) := by
  induction acc with
  | nil => simp [mergeInto, weightOf_cons]
  | cons a rest ih =>
    by_cases hab : a.ranking = b.ranking
    · simp only [mergeInto, if_pos hab, weightOf_cons]
      split_ifs with h1 h2 h2
      · ring
      · exact absurd (hab.trans h1) h2
      · exact absurd (hab.symm.trans h2) h1
      · ring
    · simp only [mergeInto, if_neg hab, weightOf_cons, ih]; ring

theorem votersOf_mergeInto (r : Ranking) (acc : List Ballot) (b : Ballot) :
    votersOf r (mergeInto acc b)
      = votersOf r acc ∪ (if b.ranking = r then b.voters else ∅) := by
  induction acc with
  | nil => simp [mergeInto, votersOf_cons]
  | cons a rest ih =>
    by_cases hab : a.ranking = b.ranking
    · simp only [mergeInto, if_pos hab, votersOf_cons]
      split_ifs with h1 h2 h2
      · rw [Finset.union_assoc, Finset.union_assoc, Finset.union_comm b.voters]
      · exact absurd (hab.trans h1) h2
      · exact absurd (hab.symm.trans h2) h1
      · simp
    · simp only [mergeInto, if_neg hab, votersOf_cons, ih, Finset.union_assoc]

theorem num_ballots_mergeInto (acc : List Ballot) (b : Ballot) :
    num_ballots (mergeInto acc b) = num_ballots acc + b.weight := by
  induction acc with
  | nil => simp [mergeInto, num_ballots]
  | cons a rest ih =>
    by_cases hab : a.ranking = b.ranking
    · simp only [mergeInto, if_pos hab, num_ballots, List.map_cons, List.sum_cons]
      ring
    · simp only [mergeInto, if_neg hab, num_ballots, List.map_cons, List.sum_cons] at *
      rw [ih]; ring

theorem map_ranking_mergeInto (acc : List Ballot) (b : Ballot) :
    (mergeInto acc b).map Ballot.ranking
      = if b.ranking ∈ acc.map Ballot.ranking
        then acc.map Ballot.ranking
        else acc.map Ballot.ranking ++ [b.ranking] := by
  induction acc with
  | nil => simp [mergeInto]
  | cons a rest ih =>
    by_cases hab : a.ranking = b.ranking
    · simp [mergeInto, if_pos hab, hab]
    · simp only [mergeInto, if_neg hab, List.map_cons, ih, List.mem_cons]
      by_cases hmem : b.ranking ∈ rest.map Ballot.ranking
      · rw [if_pos hmem, if_pos (Or.inr hmem)]
      · rw [if_neg hmem, if_neg (fun h => h.elim (fun h' => hab h'.symm) hmem)]
        simp

theorem nodup_mergeInto (acc : List Ballot) (b : Ballot)
    (h : (acc.map Ballot.ranking).Nodup) :
    ((mergeInto acc b).map Ballot.ranking).Nodup := by
  rw [map_ranking_mergeInto]
  by_cases hmem : b.ranking ∈ acc.map Ballot.ranking
  · rwa [if_pos hmem]
  · rw [if_neg hmem]
    refine List.Nodup.append h (List.nodup_singleton _) ?_
    intro x hx hxb
    rw [List.mem_singleton] at hxb
    exact hmem (hxb ▸ hx)

theorem mem_map_ranking_mergeInto (acc : List Ballot) (b : Ballot) (r : Ranking) :
    r ∈ (mergeInto acc b).map Ballot.ranking
      ↔ r ∈ acc.map Ballot.ranking ∨ r = b.ranking := by
  rw [map_ranking_mergeInto]
  by_cases hmem : b.ranking ∈ acc.map Ballot.ranking
  · rw [if_pos hmem]
    constructor
    · exact Or.inl
    · rintro (h | rfl) <;> assumption
  · rw [if_neg hmem]; simp

theorem weightOf_foldl (r : Ranking) (bs : List Ballot) :
    ∀ acc : List Ballot,
      weightOf r (bs.foldl mergeInto acc) = weightOf r acc + weightOf r bs := by
  induction bs with
  | nil => intro acc; simp
  | cons b rest ih =>
    intro acc
    rw [List.foldl_cons, ih, weightOf_mergeInto, weightOf_cons]
    ring

theorem votersOf_foldl (r : Ranking) (bs : List Ballot) :
    ∀ acc : List Ballot,
      votersOf r (bs.foldl mergeInto acc) = votersOf r acc ∪ votersOf r bs := by
  induction bs with
  | nil => intro acc; simp
  | cons b rest ih =>
    intro acc
    rw [List.foldl_cons, ih, votersOf_mergeInto, votersOf_cons]
    ac_rfl

theorem num_ballots_foldl (bs : List Ballot) :
    ∀ acc : List Ballot,
      num_ballots (bs.foldl mergeInto acc) = num_ballots acc + num_ballots bs := by
  induction bs with
  | nil => intro acc; simp [num_ballots]
  | cons b rest ih =>
    intro acc
    rw [List.foldl_cons, ih, num_ballots_mergeInto]
    simp [num_ballots]
    ring

theorem nodup_foldl (bs : List Ballot) :
    ∀ acc : List Ballot, (acc.map Ballot.ranking).Nodup →
      ((bs.foldl mergeInto acc).map Ballot.ranking).Nodup := by
  induction bs with
  | nil => intro acc h; simpa using h
  | cons b rest ih =>
    intro acc h
    exact ih (mergeInto acc b) (nodup_mergeInto acc b h)

theorem mem_map_ranking_foldl (r : Ranking) (bs : List Ballot) :
    ∀ acc : List Ballot,
      (r ∈ (bs.foldl mergeInto acc).map Ballot.ranking
        ↔ r ∈ acc.map Ballot.ranking ∨ r ∈ bs.map Ballot.ranking) := by
  induction bs with
  | nil => intro acc; simp
  | cons b rest ih =>
    intro acc
    rw [List.foldl_cons, ih, mem_map_ranking_mergeInto]
    simp only [List.map_cons, List.mem_cons]
    tauto

theorem num_ballots_aggregate (bs : List Ballot) :
    num_ballots (aggregate bs) = num_ballots bs := by
  rw [aggregate, num_ballots_foldl]
  simp [num_ballots]

theorem mem_map_ranking_aggregate (r : Ranking) (bs : List Ballot) :
    r ∈ (aggregate bs).map Ballot.ranking ↔ r ∈ bs.map Ballot.ranking := by
  rw [aggregate, mem_map_ranking_foldl]
  simp

/-- C4: profile aggregation merges all ballots whose rankings are identical
into a single ballot whose weight is the sum of the merged weights and whose
voter set is the union of the merged voter sets; in the result no two ballots
share a ranking, and exactly the input rankings occur. -/
theorem aggregate_merges_duplicates (bs : List Ballot) :
    ((aggregate bs).map Ballot.ranking).Nodup
      ∧ (∀ r : Ranking,
          weightOf r (aggregate bs) = weightOf r bs
            ∧ votersOf r (aggregate bs) = votersOf r bs
            ∧ (r ∈ (aggregate bs).map Ballot.ranking ↔ r ∈ bs.map Ballot.ranking)) := by
  refine ⟨nodup_foldl bs [] (by simp), fun r => ⟨?_, ?_, mem_map_ranking_aggregate r bs⟩⟩
  · rw [aggregate, weightOf_foldl]; simp
  · rw [aggregate, votersOf_foldl]; simp

/-- Modelled from the spec: `BallotSimplex.from_alpha(alpha=0, …)` is the
degenerate limit that draws one ranking `r` once and then emits `n` identical
unit-weight ballots, folded into a profile (`ballot_generator.py` is absent
from the sources; behaviour fixed by §4.4 and
`test_ballot_simplex_from_alpha_zero`). -/
def fromAlphaZeroProfile (r : Ranking) (n : ℕ) : List Ballot :=
  aggregate (List.replicate n ⟨r, 1, ∅⟩)

theorem foldl_replicate_unit (r : Ranking) (n : ℕ) :
    ∀ k : ℚ,
      (List.replicate n (⟨r, 1, ∅⟩ : Ballot)).foldl mergeInto [⟨r, k, ∅⟩]
        = [⟨r, k + n, ∅⟩] := by
  induction n with
  | zero => intro k; simp
  | succ m ih =>
    intro k
    rw [List.replicate_succ, List.foldl_cons]
    have hmerge : mergeInto [(⟨r, k, ∅⟩ : Ballot)] ⟨r, 1, ∅⟩ = [⟨r, k + 1, ∅⟩] := by
      simp [mergeInto]
    rw [hmerge, ih]
    have : k + 1 + (m : ℚ) = k + ((m + 1 : ℕ) : ℚ) := by push_cast; ring
    rw [this]

/-- C3: for `n > 0`, the `alpha = 0` ballot-simplex profile consists of a
single ballot: the one drawn ranking with the whole weight `n`, hence exactly
one distinct ranking. -/
theorem from_alpha_zero_single_ranking (r : Ranking) (n : ℕ) (h : 0 < n) :
    fromAlphaZeroProfile r n = [⟨r, (n : ℚ), ∅⟩]
      ∧ (fromAlphaZeroProfile r n).length = 1 := by
  obtain ⟨m, rfl⟩ := Nat.exists_eq_succ_of_ne_zero h.ne'
  have : fromAlphaZeroProfile r (m + 1) = [⟨r, ((m + 1 : ℕ) : ℚ), ∅⟩] := by
    rw [fromAlphaZeroProfile, aggregate, List.replicate_succ, List.foldl_cons]
    have h0 : mergeInto [] (⟨r, 1, ∅⟩ : Ballot) = [⟨r, (1 : ℚ), ∅⟩] := rfl
    rw [h0, foldl_replicate_unit]
    have : (1 : ℚ) + (m : ℚ) = ((m + 1 : ℕ) : ℚ) := by push_cast; ring
    rw [this]
  exact ⟨this, by rw [this]; rfl⟩

/-- Witness for C3 at `n = 3`. -/
theorem from_alpha_zero_single_ranking_witness :
    0 < 3
      ∧ (fromAlphaZeroProfile [{some "A"}] 3 = [⟨[{some "A"}], ((3 : ℕ) : ℚ), ∅⟩]
          ∧ (fromAlphaZeroProfile [{some "A"}] 3).length = 1) :=
  ⟨by decide, from_alpha_zero_single_ranking [{some "A"}] 3 (by decide)⟩

/-- Modelled from the spec: the generators' rounding policy for per-bloc
ballot counts is round-half-up (`round_num`, §4.5; `ballot_generator.py` is
absent from the sources). -/
def round_num (x : ℚ) : ℤ :=
  ⌊x + 1 / 2⌋

/-- Modelled from the spec: the number of ballots drawn for each bloc is
`round_num(n × bloc_voter_prop[bloc])` (§4.5). -/
def blocBallotCounts (n : ℕ) (props : List ℚ) : List ℤ :=
  props.map fun p => round_num ((n : ℚ) * p)

/-- Modelled from the spec: a bloc-aware generator draws one pool of rankings
per bloc and folds all of them, as unit-weight ballots, into the returned
profile. -/
def blocGeneratedProfile (pools : List (List Ranking)) : List Ballot :=
  aggregate (pools.flatten.map fun r => ⟨r, 1, ∅⟩)

theorem num_ballots_unit (l : List Ranking) :
    num_ballots (l.map fun r => (⟨r, 1, ∅⟩ : Ballot)) = (l.length : ℚ) := by
  induction l with
  | nil => rfl
  | cons a t ih =>
    simp only [List.map_cons, num_ballots, List.sum_cons] at *
    rw [ih, List.length_cons]
    push_cast
    ring

theorem num_ballots_blocGenerated (pools : List (List Ranking)) :
    num_ballots (blocGeneratedProfile pools)
      = (((pools.map List.length).sum : ℕ) : ℚ) := by
  rw [blocGeneratedProfile, num_ballots_aggregate, num_ballots_unit,
    List.length_flatten]

theorem floor_intCast_add_half (k : ℤ) : ⌊(k : ℚ) + 1 / 2⌋ = k := by
  rw [Int.floor_int_add]
  norm_num

theorem counts_sum_cast (n : ℕ) (pools : List (List Ranking)) (props : List ℚ)
    (h : List.Forall₂
      (fun (pool : List Ranking) (p : ℚ) => (pool.length : ℤ) = round_num ((n : ℚ) * p))
      pools props) :
    (∀ p ∈ props, ∃ k : ℤ, (n : ℚ) * p = (k : ℚ)) →
      (((pools.map List.length).sum : ℕ) : ℚ) = (n : ℚ) * props.sum := by
  induction h with
  | nil => intro _; simp
  | @cons pool p pools2 props2 h1 _ ih =>
    intro hint
    obtain ⟨k, hk⟩ := hint p (List.mem_cons_self p props2)
    have hcount : ((pool.length : ℕ) : ℚ) = (n : ℚ) * p := by
      have : (pool.length : ℤ) = k := by
        rw [h1, round_num, hk, floor_intCast_add_half]
      calc ((pool.length : ℕ) : ℚ) = ((pool.length : ℤ) : ℚ) := by push_cast; ring
        _ = (k : ℚ) := by rw [this]
        _ = (n : ℚ) * p := hk.symm
    have ihv := ih (fun q hq => hint q (List.mem_cons_of_mem p hq))
    simp only [List.map_cons, List.sum_cons]
    push_cast at ihv ⊢
    rw [hcount] at *
    rw [ihv]
    ring

/-- Counterexample for C2 as stated: with `n = 1` and two blocs of voter
proportion `1/2` each, round-half-up gives each bloc one ballot, so the
generated profile has `num_ballots = 2 ≠ 1`. -/
theorem generate_profile_count_counterexample :
    round_num ((1 : ℚ) * (1 / 2)) = 1
      ∧ blocBallotCounts 1 [1 / 2, 1 / 2] = [1, 1]
      ∧ num_ballots (blocGeneratedProfile [[[{some "A"}]], [[{some "B"}]]]) = 2
      ∧ (2 : ℚ) ≠ 1 := by
  refine ⟨?_, ?_, ?_, by norm_num⟩
  · rw [round_num]; norm_num [Int.floor_eq_iff]
  · simp only [blocBallotCounts, List.map_cons, List.map_nil]
    rw [round_num]
    norm_num [Int.floor_eq_iff]
  · rw [num_ballots_blocGenerated]; rfl

/-- C2 (amended): the profile returned by a bloc-aware generator has
`num_ballots` equal to the sum of the per-bloc rounded counts
`round_num(n × bloc_voter_prop[bloc])`; this equals `n` exactly whenever every
`n × bloc_voter_prop[bloc]` is an integer and the proportions sum to 1, but
can differ from `n` otherwise. -/
theorem generate_profile_count_amended (n : ℕ) (props : List ℚ)
    (pools : List (List Ranking))
    (hlen : List.Forall₂
      (fun (pool : List Ranking) (p : ℚ) => (pool.length : ℤ) = round_num ((n : ℚ) * p))
      pools props)
    (hint : ∀ p ∈ props, ∃ k : ℤ, (n : ℚ) * p = (k : ℚ))
    (hsum : props.sum = 1) :
    num_ballots (blocGeneratedProfile pools) = (n : ℚ) := by
  rw [num_ballots_blocGenerated, counts_sum_cast n pools props hlen hint, hsum,
    mul_one]

/-- Witness for C2 (amended) at `n = 10`, proportions `7/10` and `3/10`. -/
theorem generate_profile_count_amended_witness :
    num_ballots (blocGeneratedProfile
        [List.replicate 7 [{some "A"}], List.replicate 3 [{some "B"}]])
      = ((10 : ℕ) : ℚ) := by
  refine generate_profile_count_amended 10 [7 / 10, 3 / 10] _ ?_ ?_ (by norm_num)
  · refine List.Forall₂.cons ?_ (List.Forall₂.cons ?_ List.Forall₂.nil)
    · rw [List.length_replicate, round_num]
      norm_num [Int.floor_eq_iff]
    · rw [List.length_replicate, round_num]
      norm_num [Int.floor_eq_iff]
  · intro p hp
    rcases List.mem_cons.mp hp with h | hp2
    · exact ⟨7, by rw [h]; norm_num⟩
    · rcases List.mem_cons.mp hp2 with h | h
      · exact ⟨3, by rw [h]; norm_num⟩
      · exact absurd h (List.not_mem_nil p)

/-- Tolerance used by `from_params` when checking that the bloc voter
proportions sum to 1 (the spec only requires "within tolerance"). -/
def from_params_tol : ℚ := 1 / 100000000

/-- Modelled from the spec: `from_params` validates, before any interval
derivation or sampling, that the values of `bloc_voter_prop` sum to 1 within
tolerance, and raises `ValueError` otherwise (§4.5, §7;
`ballot_generator.py` is absent from the sources). -/
def from_params_check (bloc_voter_prop : List (String × ℚ)) :
    Except String (List (String × ℚ)) :=
  if |(bloc_voter_prop.map Prod.snd).sum - 1| ≤ from_params_tol then
    .ok bloc_voter_prop
  else
    .error "bloc voter proportions must sum to 1"

/-- C5: `from_params` fails with a parameter error whenever the
`bloc_voter_prop` values do not sum to 1 within tolerance, and in that case no
generator is produced. -/
theorem from_params_rejects_bad_blocs (bvp : List (String × ℚ))
    (h : ¬ |(bvp.map Prod.snd).sum - 1| ≤ from_params_tol) :
    from_params_check bvp = .error "bloc voter proportions must sum to 1"
      ∧ ∀ g, from_params_check bvp ≠ .ok g := by
  have herr : from_params_check bvp = .error "bloc voter proportions must sum to 1" := by
    rw [from_params_check, if_neg h]
  exact ⟨herr, fun g hg => by rw [herr] at hg; exact Except.noConfusion hg⟩

/-- Witness for C5 at `bloc_voter_prop = {"R": 0.7, "D": 0.4}`. -/
theorem from_params_rejects_bad_blocs_witness :
    (¬ |(([("R", (7 : ℚ) / 10), ("D", 2 / 5)]).map Prod.snd).sum - 1| ≤ from_params_tol)
      ∧ from_params_check [("R", (7 : ℚ) / 10), ("D", 2 / 5)]
          = .error "bloc voter proportions must sum to 1" := by
  have h : ¬ |(([("R", (7 : ℚ) / 10), ("D", 2 / 5)]).map Prod.snd).sum - 1|
      ≤ from_params_tol := by
    simp only [List.map_cons, List.map_nil, List.sum_cons, List.sum_nil]
    rw [from_params_tol, not_le]
    rw [show (7 : ℚ) / 10 + (2 / 5 + 0) - 1 = 1 / 10 by norm_num,
      abs_of_pos (by norm_num : (0 : ℚ) < 1 / 10)]
    norm_num
  exact ⟨h, (from_params_rejects_bad_blocs _ h).1⟩

/-- Modelled from the spec: the unnormalized per-candidate support values
derived by `from_params` for one bloc.  The own slate's Dirichlet draw
`ownDraw` is scaled by `cohesion`; each opposing slate's draw is scaled by the
remaining mass `1 - cohesion` times that slate's relative alpha weight
(§4.5; the Dirichlet draws are passed in explicitly because sampling
randomness is external to the embedding). -/
def derive_bloc_raw (cohesion : ℚ) (ownDraw : List ℚ) (oppAlphas : List ℚ)
    (oppDraws : List (List ℚ)) : List ℚ :=
  ownDraw.map (fun d => cohesion * d)
    ++ ((oppAlphas.zip oppDraws).map fun ad =>
          ad.2.map fun d => (1 - cohesion) * (ad.1 / oppAlphas.sum) * d).flatten

/-- Modelled from the spec: the bloc's preference interval, the scaled values
normalized to sum to 1 (§4.5). -/
def derive_bloc_interval (cohesion : ℚ) (ownDraw : List ℚ) (oppAlphas : List ℚ)
    (oppDraws : List (List ℚ)) : List ℚ :=
  let raw := derive_bloc_raw cohesion ownDraw oppAlphas oppDraws
  raw.map fun x => x / raw.sum

theorem sum_map_mul_left' (c : ℚ) (l : List ℚ) :
    (l.map fun d => c * d).sum = c * l.sum := by
  induction l with
  | nil => simp
  | cons a t ih => simp only [List.map_cons, List.sum_cons, ih]; ring

theorem opp_scaled_sum (c s : ℚ) :
    ∀ (alphas : List ℚ) (draws : List (List ℚ)),
      alphas.length = draws.length →
      (∀ d ∈ draws, d.sum = 1) →
      (((alphas.zip draws).map fun ad =>
          ad.2.map fun d => (1 - c) * (ad.1 / s) * d).flatten).sum
        = (1 - c) * (alphas.sum / s) := by
  intro alphas
  induction alphas with
  | nil => intro draws _ _; simp
  | cons a as ih =>
    intro draws hlen hsum
    cases draws with
    | nil => simp at hlen
    | cons dr drs =>
      simp only [List.zip_cons_cons, List.map_cons, List.flatten_cons,
        List.sum_append, List.sum_cons]
      rw [sum_map_mul_left', hsum dr (List.mem_cons_self dr drs),
        ih drs (by simpa using hlen) (fun x hx => hsum x (List.mem_cons_of_mem dr hx))]
      ring

theorem derive_bloc_raw_sum (cohesion : ℚ) (ownDraw : List ℚ)
    (oppAlphas : List ℚ) (oppDraws : List (List ℚ))
    (hos : ownDraw.sum = 1) (has : 0 < oppAlphas.sum)
    (hlen : oppAlphas.length = oppDraws.length)
    (hdd : ∀ dr ∈ oppDraws, dr.sum = 1) :
    (derive_bloc_raw cohesion ownDraw oppAlphas oppDraws).sum = 1 := by
  rw [derive_bloc_raw, List.sum_append, sum_map_mul_left', hos,
    opp_scaled_sum cohesion oppAlphas.sum oppAlphas oppDraws hlen hdd,
    div_self has.ne']
  ring

/-- C6: for every valid cohesion/alpha configuration and every family of
non-negative unit-sum Dirichlet draws, the preference interval derived for a
bloc has non-negative per-candidate values that sum to exactly 1. -/
theorem derive_interval_normalized (cohesion : ℚ) (ownDraw : List ℚ)
    (oppAlphas : List ℚ) (oppDraws : List (List ℚ))
    (hc0 : 0 ≤ cohesion) (hc1 : cohesion ≤ 1)
    (hod : ∀ d ∈ ownDraw, 0 ≤ d) (hos : ownDraw.sum = 1)
    (ha : ∀ a ∈ oppAlphas, 0 ≤ a) (has : 0 < oppAlphas.sum)
    (hlen : oppAlphas.length = oppDraws.length)
    (hdd : ∀ dr ∈ oppDraws, (∀ d ∈ dr, 0 ≤ d) ∧ dr.sum = 1) :
    (derive_bloc_interval cohesion ownDraw oppAlphas oppDraws).sum = 1
      ∧ ∀ x ∈ derive_bloc_interval cohesion ownDraw oppAlphas oppDraws, 0 ≤ x := by
  have hraw : (derive_bloc_raw cohesion ownDraw oppAlphas oppDraws).sum = 1 :=
    derive_bloc_raw_sum cohesion ownDraw oppAlphas oppDraws hos has hlen
      (fun dr hdr => (hdd dr hdr).2)
  have hnonneg : ∀ x ∈ derive_bloc_raw cohesion ownDraw oppAlphas oppDraws, 0 ≤ x := by
    intro x hx
    rw [derive_bloc_raw, List.mem_append] at hx
    rcases hx with hx | hx
    · obtain ⟨d, hd, rfl⟩ := List.mem_map.mp hx
      exact mul_nonneg hc0 (hod d hd)
    · obtain ⟨l, hl, hxl⟩ := List.mem_flatten.mp hx
      obtain ⟨ad, had, rfl⟩ := List.mem_map.mp hl
      obtain ⟨d, hd, rfl⟩ := List.mem_map.mp hxl
      have hmem := List.of_mem_zip had
      exact mul_nonneg
        (mul_nonneg (by linarith) (div_nonneg (ha ad.1 hmem.1) has.le))
        ((hdd ad.2 hmem.2).1 d hd)
  constructor
  · rw [derive_bloc_interval]
    simp only [hraw, div_one]
    rw [List.map_id']
    exact hraw
  · intro x hx
    rw [derive_bloc_interval] at hx
    simp only [hraw, div_one] at hx
    rw [List.map_id'] at hx
    exact hnonneg x hx

/-- Witness for C6 at cohesion `7/10`, one opposing slate with alpha 1,
own draw `[1/2, 1/2]`, opposing draw `[1]`. -/
theorem derive_interval_normalized_witness :
    (derive_bloc_interval (7 / 10) [1 / 2, 1 / 2] [1] [[1]]).sum = 1
      ∧ ∀ x ∈ derive_bloc_interval (7 / 10) [1 / 2, 1 / 2] [1] [[1]], 0 ≤ x := by
  refine derive_interval_normalized (7 / 10) [1 / 2, 1 / 2] [1] [[1]]
    (by norm_num) (by norm_num) ?_ (by norm_num) ?_ (by norm_num) (by norm_num) ?_
  · intro d hd; fin_cases hd <;> norm_num
  · intro a ha; fin_cases ha; norm_num
  · intro dr hdr; fin_cases hdr
    exact ⟨by intro d hd; fin_cases hd; norm_num, by norm_num⟩

/-- Modelled from the spec: the Bradley-Terry probability of one ranking, the
product over successive positions of the factors
`support[c] / (support[c] + support[d])` for every `d` ranked below `c`
(§4.6, `test_BT_probability_calculation`; `ballot_generator.py` is absent
from the sources). -/
def btProb (support : String → ℚ) : List String → ℚ
  | [] => 1
  | c :: rest =>
    ((rest.map fun d => support c / (support c + support d)).prod) * btProb support rest

/-- Modelled from the spec: `BradleyTerry.calculate_ranking_probs` maps each
permutation of the given list to its unnormalized Bradley-Terry probability
under the given candidate-support mapping. -/
def calculate_ranking_probs (perms : List (List String)) (support : String → ℚ) :
    List (List String × ℚ) :=
  perms.map fun p => (p, btProb support p)

/-- The ordered pairs `(a, b)` such that `a` is ranked above `b` in the
list. -/
def rankedPairs : List String → List (String × String)
  | [] => []
  | c :: rest => (rest.map fun d => (c, d)) ++ rankedPairs rest

theorem btProb_eq_rankedPairs_prod (support : String → ℚ) (p : List String) :
    btProb support p
      = ((rankedPairs p).map fun q => support q.1 / (support q.1 + support q.2)).prod := by
  induction p with
  | nil => rfl
  | cons c rest ih =>
    rw [btProb, rankedPairs, List.map_append, List.prod_append, ih, List.map_map]
    rfl

theorem mem_rankedPairs (p : List String) (a b : String) :
    (a, b) ∈ rankedPairs p
      ↔ ∃ i j : ℕ, i < j ∧ p[i]? = some a ∧ p[j]? = some b := by
  induction p with
  | nil =>
    simp [rankedPairs]
  | cons c rest ih =>
    simp only [rankedPairs, List.mem_append, List.mem_map, ih]
    constructor
    · rintro (⟨d, hd, heq⟩ | ⟨i, j, hij, ha, hb⟩)
      · obtain ⟨rfl, rfl⟩ := Prod.mk.injEq c d a b ▸ heq
        obtain ⟨j, hj⟩ := List.mem_iff_getElem?.mp hd
        exact ⟨0, j + 1, Nat.succ_pos j, by simp, by simpa using hj⟩
      · exact ⟨i + 1, j + 1, Nat.succ_lt_succ hij, by simpa using ha, by simpa using hb⟩
    · rintro ⟨i, j, hij, ha, hb⟩
      cases i with
      | zero =>
        left
        have hca : c = a := by simpa using ha
        cases j with
        | zero => exact absurd hij (lt_irrefl 0)
        | succ j' =>
          have hbr : rest[j']? = some b := by simpa using hb
          exact ⟨b, List.mem_iff_getElem?.mpr ⟨j', hbr⟩, by rw [hca]⟩
      | succ i' =>
        right
        cases j with
        | zero => exact absurd hij (Nat.not_lt_zero _).elim
        | succ j' =>
          exact ⟨i', j', Nat.succ_lt_succ_iff.mp hij,
            by simpa using ha, by simpa using hb⟩

theorem lookup_map_self (f : List String → ℚ) :
    ∀ (perms : List (List String)) (p : List String), p ∈ perms →
      List.lookup p (perms.map fun q => (q, f q)) = some (f p) := by
  intro perms
  induction perms with
  | nil => intro p hp; exact absurd hp (List.not_mem_nil p)
  | cons q rest ih =>
    intro p hp
    rw [List.map_cons, List.lookup_cons]
    by_cases hpq : p = q
    · subst hpq
      simp
    · have : (p == q) = false := beq_false_of_ne hpq
      rw [this]
      rcases List.mem_cons.mp hp with h | h
      · exact absurd h hpq
      · exact ih p h

/-- The concrete support mapping `{W1: 0.4, W2: 0.3, C1: 0.2, C2: 0.1}` from
the spec's Bradley-Terry example. -/
def exampleSupport : String → ℚ := fun c =>
  if c = "W1" then 2 / 5
  else if c = "W2" then 3 / 10
  else if c = "C1" then 1 / 5
  else 1 / 10

/-- C1: `calculate_ranking_probs` returns, for each permutation in the list,
exactly the product over all position pairs `(i, j)` with `i` ranked above `j`
of `support[i] / (support[i] + support[j])` (`rankedPairs` enumerates exactly
those pairs); in particular, for supports
`{W1: 0.4, W2: 0.3, C1: 0.2, C2: 0.1}` the probability of the ranking
`(W1, W2, C2)` is `(0.4/0.7) * (0.4/0.5) * (0.3/0.4)` exactly. -/
theorem bt_calculate_ranking_probs_correct :
    (∀ (support : String → ℚ), (∀ c, 0 < support c) →
      ∀ (perms : List (List String)) (p : List String), p ∈ perms →
        List.lookup p (calculate_ranking_probs perms support)
          = some (((rankedPairs p).map fun q =>
              support q.1 / (support q.1 + support q.2)).prod))
    ∧ (∀ (p : List String) (a b : String),
        (a, b) ∈ rankedPairs p ↔ ∃ i j : ℕ, i < j ∧ p[i]? = some a ∧ p[j]? = some b)
    ∧ List.lookup ["W1", "W2", "C2"]
        (calculate_ranking_probs [["W1", "W2", "C2"]] exampleSupport)
        = some ((2 / 5 / (7 / 10)) * (2 / 5 / (1 / 2)) * (3 / 10 / (2 / 5))) := by
  refine ⟨fun support _ perms p hp => ?_, mem_rankedPairs, ?_⟩
  · rw [calculate_ranking_probs, lookup_map_self (btProb support) perms p hp,
      btProb_eq_rankedPairs_prod]
  · rw [calculate_ranking_probs, List.map_cons, List.map_nil, List.lookup_cons]
    have h1 : ("W2" : String) ≠ "W1" := by decide
    have h2 : ("C2" : String) ≠ "W1" := by decide
    have h3 : ("C2" : String) ≠ "W2" := by decide
    have h4 : ("C2" : String) ≠ "C1" := by decide
    norm_num [btProb, exampleSupport, h1, h2, h3, h4]

/-- Witness for C1: the general equation applied to the spec's concrete
support mapping and the singleton permutation list `[(W1, W2, C2)]`. -/
theorem bt_calculate_ranking_probs_correct_witness :
    List.lookup ["W1", "W2", "C2"]
        (calculate_ranking_probs [["W1", "W2", "C2"]] exampleSupport)
      = some (((rankedPairs ["W1", "W2", "C2"]).map fun q =>
          exampleSupport q.1 / (exampleSupport q.1 + exampleSupport q.2)).prod) :=
  bt_calculate_ranking_probs_correct.1 exampleSupport
    (by
      intro c
      rw [exampleSupport]
      split_ifs <;> norm_num)
    [["W1", "W2", "C2"]] ["W1", "W2", "C2"] (List.mem_cons_self _ _)

/-- Modelled from the spec: the loader turns one source position into one
ranking position: a named candidate becomes the singleton set of that
candidate, a blank position becomes the undervote set `{None}` at the same
index (§4.1, glossary "Undervote"; `cvr_loaders.py` is absent from the
sources). -/
def posToSet : Option String → Finset Cand
  | some c => {some c}
  | none => {none}

/-- Modelled from the spec: one source row (voter identifier plus ranked
positions) becomes one unit-weight ballot. -/
def rowToBallot (voter : String) (row : List (Option String)) : Ballot :=
  ⟨row.map posToSet, 1, {voter}⟩

/-- Modelled from the spec: the loader converts every row to a ballot and
aggregates them into a profile; empty and all-undervote rows are kept. -/
def load_rows (rows : List (String × List (Option String))) : List Ballot :=
  aggregate (rows.map fun r => rowToBallot r.1 r.2)

/-- C7: loading preserves undervote positions: a blank position becomes the
set `{None}` at the same index, a row ranking only `c` in the first of three
positions yields the single ballot `ranking=[{c},{None},{None}], weight=1`,
and every input row's ranking — including empty or all-undervote ones —
occurs in the loaded profile. -/
theorem load_preserves_undervotes :
    posToSet none = ({none} : Finset Cand)
      ∧ (∀ (voter : String) (row : List (Option String)) (i : ℕ),
          (rowToBallot voter row).ranking[i]? = (row[i]?).map posToSet)
      ∧ load_rows [("a", [some "c", none, none])]
          = [⟨[{some "c"}, {none}, {none}], 1, {"a"}⟩]
      ∧ (∀ (rows : List (String × List (Option String))) (v : String)
            (row : List (Option String)), (v, row) ∈ rows →
          row.map posToSet ∈ (load_rows rows).map Ballot.ranking) := by
  refine ⟨rfl, fun voter row i => ?_, rfl, fun rows v row hmem => ?_⟩
  · rw [rowToBallot]
    exact List.getElem?_map posToSet row i
  · rw [load_rows, mem_map_ranking_aggregate, List.map_map]
    exact List.mem_map.mpr ⟨(v, row), hmem, rfl⟩

/-- Witness for C7: a profile loaded from an all-undervote row and an empty
row keeps both rankings. -/
theorem load_preserves_undervotes_witness :
    (("a", ([none, none] : List (Option String)))
        ∈ [("a", ([none, none] : List (Option String))), ("b", [])]
      ∧ [none, none].map posToSet
          ∈ (load_rows [("a", [none, none]), ("b", [])]).map Ballot.ranking)
      ∧ (("b", ([] : List (Option String)))
          ∈ [("a", ([none, none] : List (Option String))), ("b", [])]
        ∧ ([] : List (Option String)).map posToSet
            ∈ (load_rows [("a", [none, none]), ("b", [])]).map Ballot.ranking) :=
  ⟨⟨by simp, load_preserves_undervotes.2.2.2 _ "a" [none, none] (by simp)⟩,
   ⟨by simp, load_preserves_undervotes.2.2.2 _ "b" [] (by simp)⟩⟩

/-- The typed error causes of the loader (FileNotFoundError, EmptyDataError,
pandas DataError). -/
inductive LoadError where
  | fileNotFound
  | emptyData
  | dataError
deriving DecidableEq

/-- Modelled from the spec: `load_csv` over an abstract file system, a map
from paths to the list of data rows of the file at that path (a missing path
is a missing file; an empty row list is an empty or header-only source).  It
fails with `fileNotFound` for a missing path, with `emptyData` for an empty
source, with `dataError` when two rows share a voter identifier, and
otherwise returns the aggregated profile (§6, §7, `test_loaders.py`;
`cvr_loaders.py` is absent from the sources). -/
def load_csv (fs : List (String × List (String × List (Option String))))
    (path : String) : Except LoadError (List Ballot) :=
  match fs.lookup path with
  | none => .error .fileNotFound
  | some rows =>
    if rows.isEmpty then .error .emptyData
    else if (rows.map Prod.fst).Nodup then .ok (load_rows rows)
    else .error .dataError

/-- C8: `load_csv` raises distinguishable typed errors by cause — a missing
path gives `fileNotFound`, an empty or header-only source gives `emptyData`,
duplicate voter identifiers give `dataError` — and it returns a profile
exactly when none of these conditions holds, so no partially constructed
profile is ever produced. -/
theorem load_csv_error_taxonomy
    (fs : List (String × List (String × List (Option String)))) (path : String) :
    (fs.lookup path = none → load_csv fs path = .error .fileNotFound)
      ∧ (∀ rows, fs.lookup path = some rows → rows = [] →
          load_csv fs path = .error .emptyData)
      ∧ (∀ rows, fs.lookup path = some rows → rows ≠ [] →
          ¬ (rows.map Prod.fst).Nodup → load_csv fs path = .error .dataError)
      ∧ (∀ prof, load_csv fs path = .ok prof
          ↔ ∃ rows, fs.lookup path = some rows ∧ rows ≠ []
              ∧ (rows.map Prod.fst).Nodup ∧ prof = load_rows rows) := by
  refine ⟨fun hnone => ?_, fun rows hsome hnil => ?_, fun rows hsome hne hdup => ?_,
    fun prof => ⟨fun hok => ?_, fun ⟨rows, hsome, hne, hnd, hprof⟩ => ?_⟩⟩
  · rw [load_csv, hnone]
  · rw [load_csv, hsome, hnil]
    rfl
  · simp only [load_csv, hsome]
    rw [if_neg (by simpa [List.isEmpty_iff] using hne), if_neg hdup]
  · rw [load_csv] at hok
    cases hlk : fs.lookup path with
    | none => rw [hlk] at hok; exact Except.noConfusion hok
    | some rows =>
      rw [hlk] at hok
      simp only at hok
      by_cases hemp : rows.isEmpty
      · rw [if_pos hemp] at hok; exact Except.noConfusion hok
      · rw [if_neg hemp] at hok
        by_cases hnd : (rows.map Prod.fst).Nodup
        · rw [if_pos hnd] at hok
          exact ⟨rows, rfl, by simpa [List.isEmpty_iff] using hemp, hnd,
            (Except.ok.injEq _ _ ▸ hok).symm⟩
        · rw [if_neg hnd] at hok; exact Except.noConfusion hok
  · simp only [load_csv, hsome]
    rw [if_neg (by simpa [List.isEmpty_iff] using hne), if_pos hnd, hprof]

/-- Witness for C8: an abstract file system exhibiting each error cause and
one successful load. -/
theorem load_csv_error_taxonomy_witness :
    load_csv [("empty.csv", []), ("dup.csv", [("x", []), ("x", [])]),
        ("good.csv", [("a", [some "c"])])] "missing.csv"
      = .error .fileNotFound
    ∧ load_csv [("empty.csv", []), ("dup.csv", [("x", []), ("x", [])]),
        ("good.csv", [("a", [some "c"])])] "empty.csv"
      = .error .emptyData
    ∧ load_csv [("empty.csv", []), ("dup.csv", [("x", []), ("x", [])]),
        ("good.csv", [("a", [some "c"])])] "dup.csv"
      = .error .dataError := by
  refine ⟨(load_csv_error_taxonomy _ "missing.csv").1 (by rfl),
    (load_csv_error_taxonomy _ "empty.csv").2.1 [] (by rfl) rfl,
    (load_csv_error_taxonomy _ "dup.csv").2.2.1 [("x", []), ("x", [])] (by rfl)
      (by simp) (by simp)⟩

/-- Round-by-round election results, from `src/votekit/election_state.py`: the
current round number, the candidates elected / eliminated / remaining in this
round, and the optional previous round (the profile field plays no role in the
methods verified here). -/
inductive ElectionState where
  | mk (curr_round : ℤ) (elected : List String) (eliminated : List String)
      (remaining : List String) (previous : Option ElectionState)

def ElectionState.curr_round : ElectionState → ℤ
  | .mk r _ _ _ _ => r

def ElectionState.elected : ElectionState → List String
  | .mk _ e _ _ _ => e

def ElectionState.eliminated : ElectionState → List String
  | .mk _ _ el _ _ => el

def ElectionState.remaining : ElectionState → List String
  | .mk _ _ _ rem _ => rem

def ElectionState.previous : ElectionState → Option ElectionState
  | .mk _ _ _ _ p => p

/-- `get_all_winners`: previous rounds' winners first, then this round's. -/
def ElectionState.get_all_winners : ElectionState → List String
  | .mk _ e _ _ none => e
  | .mk _ e _ _ (some p) => p.get_all_winners ++ e

/-- `get_all_eliminated`: this round's eliminated list reversed, then the
previous rounds' recursively. -/
def ElectionState.get_all_eliminated : ElectionState → List String
  | .mk _ _ el _ none => el.reverse
  | .mk _ _ el _ (some p) => el.reverse ++ p.get_all_eliminated

/-- `get_rankings`: all winners, then the remaining candidates, then all
eliminated candidates. -/
def ElectionState.get_rankings (s : ElectionState) : List String :=
  s.get_all_winners ++ s.remaining ++ s.get_all_eliminated

/-- `get_round_outcome`: the elected/eliminated pair of the first state in the
previous-round chain whose round number matches, else `ValueError`. -/
def ElectionState.get_round_outcome :
    ElectionState → ℤ → Except String (List String × List String)
  | .mk r e el _ prev, roundNum =>
    if r = roundNum then .ok (e, el)
    else
      match prev with
      | some p => p.get_round_outcome roundNum
      | none => .error "Round number out of range"

/-- The previous-round chain of a state: the state itself, then its previous
states back to the first round. -/
def ElectionState.chain : ElectionState → List ElectionState
  | .mk r e el rem none => [.mk r e el rem none]
  | .mk r e el rem (some p) => .mk r e el rem (some p) :: p.chain

/-- C9: `get_round_outcome(roundNum)` returns the elected/eliminated outcome
of the state in the previous-round chain whose `curr_round` equals `roundNum`
(the nearest one if several match), and raises `ValueError` exactly when no
state in the chain has that round number. -/
theorem get_round_outcome_spec :
    ∀ (s : ElectionState) (roundNum : ℤ),
      s.get_round_outcome roundNum
        = match s.chain.find? (fun t => decide (t.curr_round = roundNum)) with
          | some t => .ok (t.elected, t.eliminated)
          | none => .error "Round number out of range"
  | .mk r e el rem none, roundNum => by
    by_cases h : r = roundNum <;>
      simp [ElectionState.get_round_outcome, ElectionState.chain, List.find?,
        ElectionState.curr_round, ElectionState.elected, ElectionState.eliminated, h]
  | .mk r e el rem (some p), roundNum => by
    have ih := get_round_outcome_spec p roundNum
    by_cases h : r = roundNum <;>
      simp [ElectionState.get_round_outcome, ElectionState.chain, List.find?,
        ElectionState.curr_round, ElectionState.elected, ElectionState.eliminated, h, ih]

/-- C10: `get_all_winners` concatenates the rounds' elected lists from the
first round to the current one, `get_all_eliminated` concatenates the rounds'
eliminated lists from the current round back to the first with each round's
own list reversed, and `get_rankings` is winners, then remaining, then
eliminated (all three are pure functions of the state). -/
theorem election_state_order_spec :
    ∀ s : ElectionState,
      s.get_all_winners = (s.chain.reverse.map ElectionState.elected).flatten
        ∧ s.get_all_eliminated
            = (s.chain.map fun t => t.eliminated.reverse).flatten
        ∧ s.get_rankings
            = s.get_all_winners ++ s.remaining ++ s.get_all_eliminated
  | .mk r e el rem none => by
    refine ⟨?_, ?_, rfl⟩ <;>
      simp [ElectionState.get_all_winners, ElectionState.get_all_eliminated,
        ElectionState.chain, ElectionState.elected, ElectionState.eliminated]
  | .mk r e el rem (some p) => by
    have ih := election_state_order_spec p
    refine ⟨?_, ?_, rfl⟩
    · simp [ElectionState.get_all_winners, ElectionState.chain,
        ElectionState.elected, ih.1]
    · simp [ElectionState.get_all_eliminated, ElectionState.chain,
        ElectionState.eliminated, ih.2.1]

end VoteKit
